import Mathlib

/-!
Verification of the aspect-sentiment pipeline of the
Sentient-Analysis-of-Indian-Colleges repository.

Shallow embedding conventions:
* Python `str` values are modelled as `List Char` (a Python string is a
  sequence of characters); `str.lower` is `List.map Char.toLower`.
* Python floats are modelled as `ℚ` (the code only forms sums, means and
  comparisons of scores, all exact over the rationals).
* `None` / NaN cells are modelled as `Option ℚ` (`none` = absent / NaN).
* External collaborators (the VADER polarity oracle, the NLTK sentence
  segmenter, the sorting kernel behind `pandas.sort_values`) are taken as
  parameters, constrained only by what the libraries guarantee.
-/

/-! ## Word-boundary keyword matching (src/analyzer.py, lines 103-105)

The source tags a sentence with an aspect via
`re.search(r'\b' + re.escape(keyword) + r'\b', sentence_lower)`.
`isWordChar` models the regex word class `\w` (ASCII `[a-zA-Z0-9_]`; all
texts reaching the matcher are lowercased first).  `reSearchWord` models
`re.search` of the anchored pattern: it scans every position of the
sentence for a literal occurrence of the keyword with a `\b` boundary on
each side.  A `\b` boundary holds at a position iff exactly one of the two
surrounding characters (a missing neighbour counts as a non-word
character) is a word character. -/

def isWordChar (c : Char) : Bool := c.isAlphanum || c = '_'

/-- Whether the character at index `i` (if any) is a word character. -/
def wordCharAt (sl : List Char) (i : Nat) : Bool :=
  match sl[i]? with
  | some c => isWordChar c
  | none => false

/-- The regex `\b` assertion at position `p` of `sl`. -/
def boundaryAt (sl : List Char) (p : Nat) : Bool :=
  (if p = 0 then false else wordCharAt sl (p - 1)) != wordCharAt sl p

/-- The anchored pattern `\b kw \b` matches at position `i` of `sl`. -/
def matchAt (kw sl : List Char) (i : Nat) : Bool :=
  decide ((sl.drop i).take kw.length = kw) && boundaryAt sl i &&
    boundaryAt sl (i + kw.length)

/-- `re.search(r'\b' + re.escape kw + r'\b', sl)` succeeds. -/
def reSearchWord (kw sl : List Char) : Bool :=
  (List.range (sl.length + 1)).any (matchAt kw sl)

/-- `any(re.search(...) for keyword in keywords)` on the lowercased
sentence (src/analyzer.py line 105; line 98 lowercases the sentence). -/
def sentenceMatches (kws : List (List Char)) (s : List Char) : Bool :=
  kws.any (fun kw => reSearchWord kw (s.map Char.toLower))

/-! ## Aspect keyword configuration (src/analyzer.py, lines 44-51) -/

def kwAcademics : List (List Char) :=
  ["academic", "academics", "course", "courses", "professor", "professors",
   "prof", "faculty", "teacher", "teaching", "curriculum", "syllabus",
   "study", "studies", "research", "exam", "exams", "grade", "grades",
   "gpa", "lecture", "lectures", "learning", "knowledge", "department",
   "assignment", "assignments", "rigor", "challenging", "difficult",
   "education", "degree"].map String.data

def kwPlacements : List (List Char) :=
  ["placement", "placements", "job", "jobs", "career", "careers", "intern",
   "internship", "internships", "recruit", "recruiter", "recruiters",
   "recruitment", "hiring", "offer", "offers", "company", "companies",
   "salary", "package", "ctc", "employ", "employment", "opportunity",
   "opportunities", "resume", "cv", "alumni network"].map String.data

def kwInfrastructure : List (List Char) :=
  ["infrastructure", "infra", "building", "buildings", "hostel", "hostels",
   "mess", "food", "canteen", "lab", "labs", "library", "wifi", "internet",
   "classroom", "classrooms", "facility", "facilities", "campus", "area",
   "clean", "maintenance", "sports", "gym", "equipment", "room", "rooms",
   "water", "power", "transport"].map String.data

def kwCampusLife : List (List Char) :=
  ["life", "campus life", "culture", "fest", "fests", "event", "events",
   "club", "clubs", "activity", "activities", "social", "community",
   "student", "students", "peer", "peers", "friend", "friends", "people",
   "atmosphere", "vibe", "environment", "fun", "enjoy", "experience",
   "hostel life", "party", "parties", "ragging", "senior", "junior",
   "diversity", "safety", "security", "interaction",
   "extra curricular"].map String.data

def kwFees : List (List Char) :=
  ["fee", "fees", "cost", "expensive", "cheap", "affordable", "price",
   "tuition", "scholarship", "loan", "value", "money", "worth", "finance",
   "financial", "payment"].map String.data

def ASPECT_KEYWORDS : List (String × List (List Char)) :=
  [("academics", kwAcademics), ("placements", kwPlacements),
   ("infrastructure", kwInfrastructure), ("campus_life", kwCampusLife),
   ("fees", kwFees)]

/-! ## Aspect sentiment accumulation (src/analyzer.py, lines 77-117)

`analyze_aspect_sentiment` segments the text with `sent_tokenize` (an
external NLTK collaborator), so the document is modelled by its sentence
list.  The per-sentence polarity comes from `get_vader_sentiment`, taken
here as a parameter `score`.  The loop of lines 97-107 appends the score
of each sentence to the accumulator of every aspect whose keywords match;
lines 109-115 turn each non-empty accumulator into its arithmetic mean,
leaving `None` otherwise. -/

def aspect_sentiments (score : List Char → ℚ) (sentences : List (List Char)) :
    List ((String × List (List Char)) × List ℚ) :=
  sentences.foldl
    (fun acc sentence =>
      acc.map (fun p =>
        if sentenceMatches p.1.2 sentence then (p.1, p.2 ++ [score sentence])
        else p))
    (ASPECT_KEYWORDS.map (fun a => (a, [])))

/-- The per-aspect accumulator lists, keyed by aspect name. -/
def aspectLists (score : List Char → ℚ) (sentences : List (List Char)) :
    List (String × List ℚ) :=
  (aspect_sentiments score sentences).map (fun p => (p.1.1, p.2))

def analyze_aspect_sentiment (score : List Char → ℚ)
    (sentences : List (List Char)) : List (String × Option ℚ) :=
  (aspect_sentiments score sentences).map (fun p =>
    (p.1.1, if p.2.isEmpty then none
            else some (p.2.sum / (p.2.length : ℚ))))

/-! ### Fold characterization: each aspect's accumulator is exactly the
scores of its matching sentences, in input order. -/

theorem aspect_foldl_eq (score : List Char → ℚ)
    (L : List (String × List (List Char))) (f : String × List (List Char) → List ℚ)
    (ss : List (List Char)) :
    ss.foldl
      (fun acc sentence =>
        acc.map (fun p =>
          if sentenceMatches p.1.2 sentence then (p.1, p.2 ++ [score sentence])
          else p))
      (L.map (fun a => (a, f a))) =
    L.map (fun a =>
      (a, f a ++ (ss.filter (fun s => sentenceMatches a.2 s)).map score)) := by
  induction ss generalizing f with
  | nil => simp
  | cons s ss ih =>
      rw [List.foldl_cons, List.map_map]
      have hstep :
          (L.map ((fun p : (String × List (List Char)) × List ℚ =>
            if sentenceMatches p.1.2 s then (p.1, p.2 ++ [score s]) else p) ∘
              (fun a => (a, f a)))) =
          L.map (fun a =>
            (a, f a ++ (if sentenceMatches a.2 s then [score s] else []))) := by
        apply List.map_congr_left
        intro a _
        by_cases h : sentenceMatches a.2 s
        · simp [h]
        · simp [h]
      rw [hstep, ih]
      apply List.map_congr_left
      intro a _
      by_cases h : sentenceMatches a.2 s
      · simp [h, List.filter_cons]
      · simp [h, List.filter_cons]

theorem aspect_sentiments_eq (score : List Char → ℚ)
    (sentences : List (List Char)) :
    aspect_sentiments score sentences =
      ASPECT_KEYWORDS.map (fun a =>
        (a, (sentences.filter (fun s => sentenceMatches a.2 s)).map score)) := by
  have h := aspect_foldl_eq score ASPECT_KEYWORDS (fun _ => []) sentences
  simpa [aspect_sentiments] using h

/-- Looking up a key of an association list built by mapping over a list
with distinct keys finds the image of that key's entry. -/
theorem lookup_keyed_map {V W : Type} (L : List (String × V))
    (g : String × V → W) (k : String) (v : V)
    (hnd : (L.map Prod.fst).Nodup) (h : (k, v) ∈ L) :
    List.lookup k (L.map (fun a => (a.1, g a))) = some (g (k, v)) := by
  induction L with
  | nil => cases h
  | cons a L ih =>
      rw [List.map_cons] at hnd
      rw [List.map_cons]
      rcases List.mem_cons.mp h with heq | hmem
      · subst heq
        simp [List.lookup]
      · have hk : k ≠ a.1 := by
          intro hk
          have : k ∈ L.map Prod.fst := List.mem_map.mpr ⟨(k, v), hmem, rfl⟩
          rw [hk] at this
          exact (List.nodup_cons.mp hnd).1 this
        have hbeq : (k == a.1) = false := beq_eq_false_iff_ne.mpr hk
        simp only [List.lookup, hbeq]
        exact ih (List.nodup_cons.mp hnd).2 hmem

/-- C1: for every document (sentence list) and polarity oracle, each
aspect's entry in `analyze_aspect_sentiment` is the arithmetic mean of the
polarity scores of exactly the sentences whose keywords matched, and is
`none` (absent) — never `0` — when no sentence matched; a single matching
sentence of polarity `0` yields the present score `some 0`. -/
theorem aspect_score_present_iff_match (score : List Char → ℚ)
    (sentences : List (List Char)) (aspect : String) (kws : List (List Char))
    (h : (aspect, kws) ∈ ASPECT_KEYWORDS) :
    List.lookup aspect (analyze_aspect_sentiment score sentences) =
      some (if sentences.filter (fun s => sentenceMatches kws s) = [] then none
            else some (((sentences.filter (fun s => sentenceMatches kws s)).map score).sum /
              ((sentences.filter (fun s => sentenceMatches kws s)).length : ℚ))) := by
  have hrw : analyze_aspect_sentiment score sentences =
      ASPECT_KEYWORDS.map (fun a => (a.1,
        if ((sentences.filter (fun s => sentenceMatches a.2 s)).map score).isEmpty then none
        else some (((sentences.filter (fun s => sentenceMatches a.2 s)).map score).sum /
          ((((sentences.filter (fun s => sentenceMatches a.2 s)).map score)).length : ℚ)))) := by
    rw [analyze_aspect_sentiment, aspect_sentiments_eq, List.map_map]
    rfl
  rw [hrw, lookup_keyed_map ASPECT_KEYWORDS _ aspect kws (by decide) h]
  congr 1
  by_cases hf : sentences.filter (fun s => sentenceMatches kws s) = []
  · simp [hf]
  · have hne : ((sentences.filter (fun s => sentenceMatches kws s)).map score).isEmpty = false := by
      simp [List.isEmpty_iff, hf]
    simp [hf, hne, List.length_map]

def c1Sentences : List (List Char) := ["The fees are zero".data]

/-- Witness for C1: a document whose single sentence mentions `fees` with
polarity `0` gets a present `fees` score equal to `0` (not absent). -/
theorem aspect_score_present_iff_match_witness :
    List.lookup "fees" (analyze_aspect_sentiment (fun _ => 0) c1Sentences) =
      some (some 0) := by
  rw [aspect_score_present_iff_match (fun _ => 0) c1Sentences "fees" kwFees (by decide)]
  have hf : c1Sentences.filter (fun s => sentenceMatches kwFees s) = c1Sentences := by
    decide
  rw [hf]
  norm_num [c1Sentences]

/-- C2: tagging is non-exclusive — a sentence of the document matching the
keyword lists of two aspects has its (single) polarity value appended to
both aspects' accumulator lists. -/
theorem sentence_contributes_to_all_matched_aspects (score : List Char → ℚ)
    (sentences : List (List Char)) (s : List Char)
    (a₁ a₂ : String) (k₁ k₂ : List (List Char))
    (h1 : (a₁, k₁) ∈ ASPECT_KEYWORDS) (h2 : (a₂, k₂) ∈ ASPECT_KEYWORDS)
    (hs : s ∈ sentences)
    (hm1 : sentenceMatches k₁ s = true) (hm2 : sentenceMatches k₂ s = true) :
    ∃ l₁ l₂, List.lookup a₁ (aspectLists score sentences) = some l₁ ∧
      List.lookup a₂ (aspectLists score sentences) = some l₂ ∧
      score s ∈ l₁ ∧ score s ∈ l₂ := by
  have hrw : aspectLists score sentences =
      ASPECT_KEYWORDS.map (fun a =>
        (a.1, (sentences.filter (fun t => sentenceMatches a.2 t)).map score)) := by
    rw [aspectLists, aspect_sentiments_eq, List.map_map]
    rfl
  refine ⟨(sentences.filter (fun t => sentenceMatches k₁ t)).map score,
          (sentences.filter (fun t => sentenceMatches k₂ t)).map score,
          ?_, ?_, ?_, ?_⟩
  · rw [hrw]
    exact lookup_keyed_map ASPECT_KEYWORDS _ a₁ k₁ (by decide) h1
  · rw [hrw]
    exact lookup_keyed_map ASPECT_KEYWORDS _ a₂ k₂ (by decide) h2
  · exact List.mem_map_of_mem score (List.mem_filter.mpr ⟨hs, hm1⟩)
  · exact List.mem_map_of_mem score (List.mem_filter.mpr ⟨hs, hm2⟩)

def c2Sentence : List Char := "the courses and placements are great".data

/-- Witness for C2: a sentence mentioning both `academics` and
`placements` keywords contributes its polarity value to both
accumulators. -/
theorem sentence_contributes_witness :
    ∃ l₁ l₂,
      List.lookup "academics" (aspectLists (fun _ => (1:ℚ)/2) [c2Sentence]) = some l₁ ∧
      List.lookup "placements" (aspectLists (fun _ => (1:ℚ)/2) [c2Sentence]) = some l₂ ∧
      ((1:ℚ)/2) ∈ l₁ ∧ ((1:ℚ)/2) ∈ l₂ :=
  sentence_contributes_to_all_matched_aspects (fun _ => (1:ℚ)/2) [c2Sentence]
    c2Sentence "academics" "placements" kwAcademics kwPlacements
    (by decide) (by decide) (by decide) (by decide) (by decide)

/-! ### C3: whole-word, word-boundary matching -/

theorem decomp_at (pre rest : List Char) :
    (pre ++ rest)[pre.length]? = rest.head? := by
  rw [List.getElem?_append_right (le_refl _), Nat.sub_self, List.head?_eq_getElem?]

theorem decomp_before (pre rest : List Char) (h : pre ≠ []) :
    (pre ++ rest)[pre.length - 1]? = pre.getLast? := by
  have hp : 0 < pre.length := List.length_pos.mpr h
  rw [List.getElem?_append_left (by omega), List.getLast?_eq_getElem?]

/-- A `\b kw \b` match at position `i` is exactly a decomposition of the
sentence as `pre ++ kw ++ post` with `pre` of length `i` ending in a
non-word character (or empty) and `post` starting with a non-word
character (or empty), for keywords beginning and ending in word
characters (every configured keyword does). -/
theorem match_iff_decomp (c : Char) (cs sl : List Char) (i : Nat)
    (hhead : isWordChar c = true)
    (hlast : isWordChar ((c :: cs).getLast (List.cons_ne_nil c cs)) = true)
    (hi : i ≤ sl.length) :
    matchAt (c :: cs) sl i = true ↔
      ∃ pre post, sl = pre ++ (c :: cs) ++ post ∧ pre.length = i ∧
        (∀ ch, pre.getLast? = some ch → isWordChar ch = false) ∧
        (∀ ch, post.head? = some ch → isWordChar ch = false) := by
  constructor
  · intro hm
    simp only [matchAt, Bool.and_eq_true] at hm
    obtain ⟨⟨htake, hb1⟩, hb2⟩ := hm
    replace htake : (sl.drop i).take (c :: cs).length = c :: cs :=
      of_decide_eq_true htake
    have hlen : i + (c :: cs).length ≤ sl.length := by
      have h := congrArg List.length htake
      simp only [List.length_take, List.length_drop] at h
      simp only [List.length_cons] at h ⊢
      omega
    have hlenpre : (sl.take i).length = i := by
      simp only [List.length_take]
      omega
    have hdropi : sl.drop i = (c :: cs) ++ sl.drop (i + (c :: cs).length) := by
      have h := List.take_append_drop (c :: cs).length (sl.drop i)
      rw [htake, List.drop_drop] at h
      exact h.symm
    have hsl : sl = sl.take i ++ ((c :: cs) ++ sl.drop (i + (c :: cs).length)) := by
      have h := List.take_append_drop i sl
      rw [hdropi] at h
      exact h.symm
    have hat : sl[i]? = some c := by
      have h := decomp_at (sl.take i) ((c :: cs) ++ sl.drop (i + (c :: cs).length))
      rw [hlenpre, ← hsl] at h
      simpa using h
    have hwat : wordCharAt sl i = true := by
      simp [wordCharAt, hat, hhead]
    have hb1' : (if i = 0 then false else wordCharAt sl (i - 1)) = false := by
      simp only [boundaryAt, hwat] at hb1
      cases h : (if i = 0 then false else wordCharAt sl (i - 1)) with
      | false => rfl
      | true => rw [h] at hb1; simp at hb1
    have hpre_cond : ∀ ch, (sl.take i).getLast? = some ch →
        isWordChar ch = false := by
      intro ch hch
      rcases Nat.eq_zero_or_pos i with hi0 | hipos
      · subst hi0
        simp at hch
      · have hne : sl.take i ≠ [] := by
          intro h0
          rw [h0] at hlenpre
          simp at hlenpre
          omega
        have h := decomp_before (sl.take i) ((c :: cs) ++ sl.drop (i + (c :: cs).length)) hne
        rw [hlenpre, ← hsl] at h
        have h' : sl[i - 1]? = some ch := h.trans hch
        have heq : wordCharAt sl (i - 1) = isWordChar ch := by
          simp [wordCharAt, h']
        have hfalse : wordCharAt sl (i - 1) = false := by
          rw [if_neg (by omega)] at hb1'
          exact hb1'
        exact heq.symm.trans hfalse
    have hsl2 : sl = (sl.take i ++ (c :: cs)) ++ sl.drop (i + (c :: cs).length) := by
      rw [← List.append_assoc] at hsl
      exact hsl
    have hlen2 : (sl.take i ++ (c :: cs)).length = i + (c :: cs).length := by
      simp only [List.length_append, hlenpre]
    have hidx : i + (c :: cs).length - 1 = i + cs.length := by
      simp only [List.length_cons]
      omega
    have hbefore2 : sl[i + cs.length]? =
        some ((c :: cs).getLast (List.cons_ne_nil c cs)) := by
      have hne2 : sl.take i ++ (c :: cs) ≠ [] := by simp
      have h := decomp_before (sl.take i ++ (c :: cs)) (sl.drop (i + (c :: cs).length)) hne2
      rw [hlen2, ← hsl2, hidx] at h
      rw [h, List.getLast?_append, List.getLast?_eq_getLast (c :: cs) (List.cons_ne_nil c cs)]
      rfl
    have hwb2 : wordCharAt sl (i + cs.length) = true := by
      simp [wordCharAt, hbefore2, hlast]
    have hat2 : sl[i + (c :: cs).length]? = (sl.drop (i + (c :: cs).length)).head? := by
      have h := decomp_at (sl.take i ++ (c :: cs)) (sl.drop (i + (c :: cs).length))
      rw [hlen2, ← hsl2] at h
      exact h
    have hb2' : wordCharAt sl (i + (c :: cs).length) = false := by
      simp only [boundaryAt] at hb2
      rw [if_neg (by simp), hidx, hwb2] at hb2
      cases h : wordCharAt sl (i + (c :: cs).length) with
      | false => rfl
      | true => rw [h] at hb2; simp at hb2
    have hpost_cond : ∀ ch, (sl.drop (i + (c :: cs).length)).head? = some ch →
        isWordChar ch = false := by
      intro ch hch
      have h' : sl[i + (c :: cs).length]? = some ch := hat2.trans hch
      have heq : wordCharAt sl (i + (c :: cs).length) = isWordChar ch := by
        simp only [wordCharAt, h']
      exact heq.symm.trans hb2'
    exact ⟨sl.take i, sl.drop (i + (c :: cs).length), hsl2, hlenpre, hpre_cond, hpost_cond⟩
  · rintro ⟨pre, post, hsl, hlenpre, hprec, hpostc⟩
    simp only [matchAt, Bool.and_eq_true]
    have hslr : sl = pre ++ ((c :: cs) ++ post) := by
      rw [hsl, List.append_assoc]
    have hdrop : sl.drop i = (c :: cs) ++ post := by
      rw [hslr, ← hlenpre, List.drop_left]
    have htake : (sl.drop i).take (c :: cs).length = c :: cs := by
      rw [hdrop, List.take_left]
    have hat : sl[i]? = some c := by
      have h := decomp_at pre ((c :: cs) ++ post)
      rw [hlenpre, ← hslr] at h
      simpa using h
    have hwat : wordCharAt sl i = true := by
      simp [wordCharAt, hat, hhead]
    refine ⟨⟨decide_eq_true htake, ?_⟩, ?_⟩
    · simp only [boundaryAt, hwat]
      rcases Nat.eq_zero_or_pos i with hi0 | hipos
      · simp [hi0]
      · rw [if_neg (by omega)]
        have hne : pre ≠ [] := by
          intro h0
          rw [h0] at hlenpre
          simp at hlenpre
          omega
        obtain ⟨lcp, hlcp⟩ : ∃ lcp, pre.getLast? = some lcp :=
          ⟨pre.getLast hne, List.getLast?_eq_getLast pre hne⟩
        have h := decomp_before pre ((c :: cs) ++ post) hne
        rw [hlenpre, ← hslr] at h
        have h' : sl[i - 1]? = some lcp := h.trans hlcp
        have hfalse : wordCharAt sl (i - 1) = false := by
          simp [wordCharAt, h', hprec lcp hlcp]
        rw [hfalse]
        rfl
    · have hsl2 : sl = (pre ++ (c :: cs)) ++ post := hsl
      have hlen2 : (pre ++ (c :: cs)).length = i + (c :: cs).length := by
        simp only [List.length_append, hlenpre]
      have hidx : i + (c :: cs).length - 1 = i + cs.length := by
        simp only [List.length_cons]
        omega
      have hbefore2 : sl[i + cs.length]? =
          some ((c :: cs).getLast (List.cons_ne_nil c cs)) := by
        have hne2 : pre ++ (c :: cs) ≠ [] := by simp
        have h := decomp_before (pre ++ (c :: cs)) post hne2
        rw [hlen2, ← hsl2, hidx] at h
        rw [h, List.getLast?_append, List.getLast?_eq_getLast (c :: cs) (List.cons_ne_nil c cs)]
        rfl
      have hwb2 : wordCharAt sl (i + cs.length) = true := by
        simp [wordCharAt, hbefore2, hlast]
      have hat2 : sl[i + (c :: cs).length]? = post.head? := by
        have h := decomp_at (pre ++ (c :: cs)) post
        rw [hlen2, ← hsl2] at h
        exact h
      have hafter : wordCharAt sl (i + (c :: cs).length) = false := by
        cases hp : post with
        | nil =>
            have hnone : sl[i + (c :: cs).length]? = none := by rw [hat2, hp]; rfl
            simp only [wordCharAt, hnone]
        | cons ch tl =>
            have hch : post.head? = some ch := by rw [hp]; rfl
            have hsome : sl[i + (c :: cs).length]? = some ch := hat2.trans hch
            simp only [wordCharAt, hsome, hpostc ch hch]
      simp only [boundaryAt]
      rw [if_neg (by simp), hidx, hwb2, hafter]
      rfl

/-- C3: keyword matching is whole-word and case-insensitive — a keyword
(which starts and ends with word characters, as all configured keywords
do) is found in a sentence exactly when the sentence decomposes around a
verbatim occurrence of the keyword whose neighbouring characters (if any)
are non-word characters; concretely, "cost" inside "costume" does not
trigger the `fees` aspect while "cost is high" does. -/
theorem keyword_match_whole_word :
    (∀ (c : Char) (cs sl : List Char),
      isWordChar c = true →
      isWordChar ((c :: cs).getLast (List.cons_ne_nil c cs)) = true →
      (reSearchWord (c :: cs) sl = true ↔
        ∃ pre post, sl = pre ++ (c :: cs) ++ post ∧
          (∀ ch, pre.getLast? = some ch → isWordChar ch = false) ∧
          (∀ ch, post.head? = some ch → isWordChar ch = false))) ∧
    sentenceMatches kwFees "The cost is high".data = true ∧
    sentenceMatches kwFees "He wore a costume".data = false := by
  refine ⟨?_, by decide, by decide⟩
  intro c cs sl hhead hlast
  rw [reSearchWord, List.any_eq_true]
  constructor
  · rintro ⟨i, hmem, hm⟩
    have hi : i ≤ sl.length := by
      have := List.mem_range.mp hmem
      omega
    obtain ⟨pre, post, h1, _, h3, h4⟩ :=
      (match_iff_decomp c cs sl i hhead hlast hi).mp hm
    exact ⟨pre, post, h1, h3, h4⟩
  · rintro ⟨pre, post, h1, h3, h4⟩
    have hi : pre.length ≤ sl.length := by
      rw [h1]
      simp
    refine ⟨pre.length, List.mem_range.mpr (by omega), ?_⟩
    exact (match_iff_decomp c cs sl pre.length hhead hlast hi).mpr
      ⟨pre, post, h1, rfl, h3, h4⟩

/-- Witness for C3: the characterization instantiated at the keyword
"cost" and the sentence "the cost is high". -/
theorem keyword_match_whole_word_witness :
    reSearchWord "cost".data "the cost is high".data = true ↔
      ∃ pre post, "the cost is high".data = pre ++ "cost".data ++ post ∧
        (∀ ch, pre.getLast? = some ch → isWordChar ch = false) ∧
        (∀ ch, post.head? = some ch → isWordChar ch = false) :=
  keyword_match_whole_word.1 'c' "ost".data "the cost is high".data
    (by decide) (by decide)

/-! ## Sentiment oracle adapter (src/analyzer.py, lines 53-75)

`get_vader_sentiment` wraps the external VADER scorer.  The module-level
`analyzer` may be `None` when the lexicon is missing (lines 55-60); the
input may be a non-string (`none` here); `polarity_scores` may raise,
modelled by an `Except` result.  The adapter itself always returns a
plain rational — by its type it cannot propagate an error. -/

/-- `not text.strip()`: the stripped text is empty iff every character is
whitespace. -/
def stripEmpty (s : List Char) : Bool := s.all Char.isWhitespace

def get_vader_sentiment (analyzer : Option (List Char → Except Unit ℚ))
    (text : Option (List Char)) : ℚ :=
  match analyzer with
  | none => 0
  | some polarity_scores =>
    match text with
    | none => 0
    | some s =>
      if stripEmpty s then 0
      else
        match polarity_scores s with
        | Except.ok q => q
        | Except.error _ => 0

/-- C4: the adapter returns the neutral score `0` on non-string (`none`),
empty, or whitespace-only input without consulting the oracle (the result
is the same for every oracle), and it returns `0` whenever the oracle
raises; being a total function into `ℚ`, it never propagates a failure. -/
theorem vader_adapter_defensive
    (an an' : Option (List Char → Except Unit ℚ)) (t : Option (List Char)) :
    ((t = none ∨ ∃ s, t = some s ∧ stripEmpty s = true) →
      get_vader_sentiment an t = 0 ∧
      get_vader_sentiment an t = get_vader_sentiment an' t) ∧
    (∀ f s e, an = some f → t = some s → f s = Except.error e →
      get_vader_sentiment an t = 0) := by
  constructor
  · rintro (rfl | ⟨s, rfl, hws⟩)
    · cases an <;> cases an' <;> simp [get_vader_sentiment]
    · cases an <;> cases an' <;> simp [get_vader_sentiment, hws]
  · rintro f s e rfl rfl herr
    by_cases hws : stripEmpty s
    · simp [get_vader_sentiment, hws]
    · simp [get_vader_sentiment, hws, herr]

/-- Witness for C4: a whitespace-only input and an always-raising oracle
both produce the neutral score `0`. -/
theorem vader_adapter_defensive_witness :
    get_vader_sentiment (some (fun _ => Except.error ())) (some "   ".data) = 0 ∧
    get_vader_sentiment (some (fun _ => Except.error ())) (some "boom".data) = 0 :=
  ⟨((vader_adapter_defensive (some (fun _ => Except.error ()))
      (some (fun _ => Except.error ())) (some "   ".data)).1
        (Or.inr ⟨"   ".data, rfl, by decide⟩)).1,
   (vader_adapter_defensive (some (fun _ => Except.error ()))
      (some (fun _ => Except.error ())) (some "boom".data)).2
        (fun _ => Except.error ()) "boom".data () rfl rfl rfl⟩

/-! ## Cohort summarizer (src/summarizer.py)

DataFrame rows are modelled as records.  A cell of a scored column is
either a value (with NaN as `none`) or a non-numeric value that
`pandas.to_numeric(errors='coerce')` coerces to NaN (`Cell.junk`).
`pandas` behaviour relied on here: `groupby` partitions rows by key
(group order is abstracted to first-occurrence order; the source's
sorted key order is irrelevant to every claim below), `mean` excludes
NaN from numerator and denominator, `dropna(how='all')` drops rows whose
cells are all NaN, and `df[col] = pd.to_numeric(df[col], ...)` assigns
the coerced column in place on the caller's frame — hence each function
is a state transformer `df → df' × result` making that assignment
explicit in the first component. -/

inductive Cell where
  | val : Option ℚ → Cell
  | junk : Cell
deriving DecidableEq

/-- `pd.to_numeric(errors='coerce')` on one cell. -/
def Cell.toNumeric : Cell → Cell
  | .val q => .val q
  | .junk => .val none

/-- The numeric reading of a cell (NaN and junk read as `none`). -/
def Cell.num : Cell → Option ℚ
  | .val q => q
  | .junk => none

structure Row where
  college : List Char
  compound : Cell
  aspects : List Cell
  created_utc : Int
  text : List Char
  permalink : List Char
deriving DecidableEq

def coerceCompound (r : Row) : Row := { r with compound := r.compound.toNumeric }

def coerceAspects (r : Row) : Row := { r with aspects := r.aspects.map Cell.toNumeric }

/-- The group keys of a `groupby`: one per distinct value, in
first-occurrence order. -/
def firstOccurAux {α : Type} [DecidableEq α] (seen : List α) : List α → List α
  | [] => []
  | c :: cs =>
      if c ∈ seen then firstOccurAux seen cs
      else c :: firstOccurAux (c :: seen) cs

def firstOccur {α : Type} [DecidableEq α] (l : List α) : List α :=
  firstOccurAux [] l

theorem mem_firstOccurAux {α : Type} [DecidableEq α] (seen l : List α) (x : α) :
    x ∈ firstOccurAux seen l ↔ x ∈ l ∧ x ∉ seen := by
  induction l generalizing seen with
  | nil => simp [firstOccurAux]
  | cons c cs ih =>
      simp only [firstOccurAux]
      by_cases hc : c ∈ seen
      · rw [if_pos hc, ih]
        simp only [List.mem_cons]
        constructor
        · rintro ⟨h1, h2⟩
          exact ⟨Or.inr h1, h2⟩
        · rintro ⟨h1 | h1, h2⟩
          · subst h1
            exact absurd hc h2
          · exact ⟨h1, h2⟩
      · rw [if_neg hc]
        simp only [List.mem_cons, ih]
        constructor
        · rintro (rfl | ⟨h1, h2⟩)
          · exact ⟨Or.inl rfl, hc⟩
          · exact ⟨Or.inr h1, fun hx => h2 (Or.inr hx)⟩
        · rintro ⟨hx | h1, h2⟩
          · exact Or.inl hx
          · by_cases hxc : x = c
            · exact Or.inl hxc
            · exact Or.inr ⟨h1, fun hor => hor.elim hxc h2⟩

theorem mem_firstOccur {α : Type} [DecidableEq α] (l : List α) (x : α) :
    x ∈ firstOccur l ↔ x ∈ l := by
  rw [firstOccur, mem_firstOccurAux]
  simp

/-- Mean of a column of values, `none` when there are none (`pandas.mean`
over a group, NaN giving NaN). -/
def listMean (l : List ℚ) : Option ℚ :=
  if l.isEmpty then none else some (l.sum / (l.length : ℚ))

/-! ### The four summarizer operations -/

def meanDescRel (a b : List Char × ℚ) : Prop := b.2 ≤ a.2

instance : DecidableRel meanDescRel :=
  fun a b => inferInstanceAs (Decidable (b.2 ≤ a.2))

instance : IsTotal (List Char × ℚ) meanDescRel :=
  ⟨fun a b => le_total b.2 a.2⟩

instance : IsTrans (List Char × ℚ) meanDescRel :=
  ⟨fun _ _ _ h1 h2 => le_trans h2 h1⟩

/-- src/summarizer.py lines 9-23: coerce the sentiment column to numeric
in place, group by college, average each group's valid scores (`mean`
skips NaN; `dropna` removes colleges with no valid score), and sort the
colleges by mean, descending.  First component: the caller's frame after
the in-place `df[sentiment_col] = pd.to_numeric(...)` of line 18. -/
def calculate_overall_sentiment (df : List Row) :
    List Row × List (List Char × ℚ) :=
  let df' := df.map coerceCompound
  (df',
   List.insertionSort meanDescRel
     ((firstOccur (df'.map (fun r => r.college))).filterMap (fun e =>
        (listMean ((df'.filter (fun r => decide (r.college = e))).filterMap
            (fun r => r.compound.num))).map (fun m => (e, m)))))

/-- src/summarizer.py lines 26-51: coerce the aspect columns to numeric
in place, group by college, average each aspect column over the group
(NaN excluded from numerator and denominator), and drop colleges whose
row is all-NaN (`dropna(how='all')`).  `ncols` is the number of aspect
columns (auto-detected from the column names in the source; explicit
here because rows are records). -/
def calculate_aspect_sentiment_summary (ncols : Nat) (df : List Row) :
    List Row × List (List Char × List (Option ℚ)) :=
  let df' := df.map coerceAspects
  (df',
   (firstOccur (df'.map (fun r => r.college))).filterMap (fun e =>
     let g := df'.filter (fun r => decide (r.college = e))
     let row := (List.range ncols).map (fun j =>
       listMean (g.filterMap (fun r => (r.aspects.getD j (Cell.val none)).num)))
     if row.all Option.isNone then none else some (e, row)))

/-! ### Calendar-month bucketing (src/summarizer.py lines 53-77)

`pd.to_datetime(ts, unit='s')` followed by `resample('M')` buckets a row
by the calendar month of its timestamp.  `civilYearMonth` is the civil
calendar conversion of a day number (days since 1970-01-01, floor
division of the epoch seconds); every division below is on a nonnegative
operand except `era`, whose conditional keeps truncated division
exact. -/

def civilYearMonth (z : Int) : Int × Int :=
  let zd := z + 719468
  let era := (if 0 ≤ zd then zd else zd - 146096) / 146097
  let doe := zd - era * 146097
  let yoe := (doe - doe / 1460 + doe / 36524 - doe / 146096) / 365
  let y := yoe + era * 400
  let doy := doe - (365 * yoe + yoe / 4 - yoe / 100)
  let mp := (5 * doy + 2) / 153
  let m := mp + (if mp < 10 then 3 else -9)
  (if m ≤ 2 then y + 1 else y, m)

/-- The calendar (year, month) bucket of an epoch-seconds timestamp. -/
def monthOf (ts : Int) : Int × Int := civilYearMonth (ts.fdiv 86400)

/-- Chronological order on (year, month) buckets. -/
def monthIdx (p : Int × Int) : Int := 12 * p.1 + p.2

def monthLeRel (a b : (Int × Int) × ℚ × Nat) : Prop := monthIdx a.1 ≤ monthIdx b.1

instance : DecidableRel monthLeRel :=
  fun a b => inferInstanceAs (Decidable (monthIdx a.1 ≤ monthIdx b.1))

instance : IsTotal ((Int × Int) × ℚ × Nat) monthLeRel :=
  ⟨fun a b => le_total (monthIdx a.1) (monthIdx b.1)⟩

instance : IsTrans ((Int × Int) × ℚ × Nat) monthLeRel :=
  ⟨fun _ _ _ h1 h2 => le_trans h1 h2⟩

/-- The rows surviving `dropna(subset=['datetime', sentiment_col])`,
each tagged with its calendar bucket. -/
def trendValid (df : List Row) : List ((Int × Int) × ℚ) :=
  df.filterMap (fun r =>
    r.compound.num.map (fun q => (monthOf r.created_utc, q)))

/-- The valid sentiment scores of the documents in calendar bucket `p`. -/
def monthScores (df : List Row) (p : Int × Int) : List ℚ :=
  ((trendValid df).filter (fun x => decide (x.1 = p))).map Prod.snd

/-- src/summarizer.py lines 53-77: work on a copy (the input frame is
returned untouched), drop rows whose sentiment is NaN, bucket the rest by
calendar month, and emit mean and count per bucket in chronological
order; buckets with no rows are absent (`resample` interpolates them as
NaN means and the final `dropna` removes them). -/
def calculate_sentiment_trends (df : List Row) :
    List Row × List ((Int × Int) × ℚ × Nat) :=
  (df,
   List.insertionSort monthLeRel
     ((firstOccur ((trendValid df).map Prod.fst)).map (fun mth =>
        (mth, ((monthScores df mth).sum / ((monthScores df mth).length : ℚ),
               (monthScores df mth).length)))))

/-! ### Top-k extremal reviews (src/summarizer.py lines 79-111) -/

/-- The sort key: the (coerced) sentiment of a row.  On the rows the
selector sorts, the sentiment is always present; the default `0` is never
read. -/
def scoreKey (r : Row) : ℚ := r.compound.num.getD 0

def rowDescRel (a b : Row) : Prop := scoreKey b ≤ scoreKey a

def rowAscRel (a b : Row) : Prop := scoreKey a ≤ scoreKey b

instance : DecidableRel rowDescRel :=
  fun a b => inferInstanceAs (Decidable (scoreKey b ≤ scoreKey a))

instance : DecidableRel rowAscRel :=
  fun a b => inferInstanceAs (Decidable (scoreKey a ≤ scoreKey b))

instance : IsTotal Row rowDescRel := ⟨fun a b => le_total (scoreKey b) (scoreKey a)⟩

instance : IsTotal Row rowAscRel := ⟨fun a b => le_total (scoreKey a) (scoreKey b)⟩

instance : IsTrans Row rowDescRel := ⟨fun _ _ _ h1 h2 => le_trans h2 h1⟩

instance : IsTrans Row rowAscRel := ⟨fun _ _ _ h1 h2 => le_trans h1 h2⟩

/-- What `pandas.sort_values(..., ascending=False)` guarantees of its
output: a permutation of the input, sorted descending by the key.  The
default `kind='quicksort'` is NOT a stable sort, so nothing constrains
the relative order of tied keys. -/
def SortsDesc (f : List Row → List Row) : Prop :=
  ∀ l, (f l).Perm l ∧ (f l).Sorted rowDescRel

/-- What `pandas.sort_values(..., ascending=True)` guarantees. -/
def SortsAsc (f : List Row → List Row) : Prop :=
  ∀ l, (f l).Perm l ∧ (f l).Sorted rowAscRel

/-- The record `[text_col, sentiment_col, permalink_col]` emitted for one
review (src/summarizer.py lines 99-105). -/
def reviewRecord (r : Row) : List Char × ℚ × List Char :=
  (r.text, scoreKey r, r.permalink)

/-- The rows of one college that carry a valid (non-NaN) sentiment after
coercion, in input order (`dropna(subset=[sentiment_col])`, then
`groupby(college_col)` — a pandas group preserves the frame's row
order). -/
def validGroup (df : List Row) (e : List Char) : List Row :=
  ((df.map coerceCompound).filter (fun r => (r.compound.num).isSome)).filter
    (fun r => decide (r.college = e))

/-- src/summarizer.py lines 79-111: coerce the sentiment column in place,
drop NaN-sentiment rows, group by college; per group, sort descending by
sentiment (`sortD`, the library sorting kernel), take the first `n` as
"positive" and the last `n` re-sorted ascending (`sortA`) as
"negative". -/
def find_top_reviews (sortD sortA : List Row → List Row) (n : Nat) (df : List Row) :
    List Row ×
      List (List Char × List (List Char × ℚ × List Char) ×
        List (List Char × ℚ × List Char)) :=
  let df' := df.map coerceCompound
  let valid := df'.filter (fun r => (r.compound.num).isSome)
  (df',
   (firstOccur (valid.map (fun r => r.college))).map (fun e =>
     let g := valid.filter (fun r => decide (r.college = e))
     let sorted := sortD g
     (e, (sorted.take n).map reviewRecord,
         (sortA (sorted.drop (sorted.length - n))).map reviewRecord)))

/-! ### C5: aspect-by-entity summary -/

theorem num_toNumeric (c : Cell) : c.toNumeric.num = c.num := by
  cases c <;> rfl

theorem getD_num_map_toNumeric (l : List Cell) (j : Nat) :
    ((l.map Cell.toNumeric).getD j (Cell.val none)).num =
      (l.getD j (Cell.val none)).num := by
  rw [List.getD_eq_getElem?_getD, List.getD_eq_getElem?_getD, List.getElem?_map]
  cases h : l[j]? with
  | none => rfl
  | some c => simp [num_toNumeric]

/-- The scores of the documents of college `e` whose aspect column `j` is
present (non-null), read off the raw input frame. -/
def presentScores (df : List Row) (e : List Char) (j : Nat) : List ℚ :=
  (df.filter (fun r => decide (r.college = e))).filterMap
    (fun r => (r.aspects.getD j (Cell.val none)).num)

/-- C5: in the aspect-by-entity summary, the cell of college `e` and
aspect column `j` is the mean over exactly that college's documents with
a non-null score in that column (nulls excluded from numerator and
denominator, `none` when there are no such documents — never `0`), and
the college's row is present in the table iff at least one of its aspect
columns has a non-null score. -/
theorem aspect_summary_cells (ncols : Nat) (df : List Row) (e : List Char) (j : Nat)
    (he : e ∈ df.map (fun r => r.college)) (hj : j < ncols) :
    ((∃ j', j' < ncols ∧ presentScores df e j' ≠ []) →
       ∃ row, (e, row) ∈ (calculate_aspect_sentiment_summary ncols df).2 ∧
         row.length = ncols ∧
         row.getD j none =
           (if presentScores df e j = [] then none
            else some ((presentScores df e j).sum /
              ((presentScores df e j).length : ℚ)))) ∧
    ((∀ j', j' < ncols → presentScores df e j' = []) →
       ∀ row, (e, row) ∉ (calculate_aspect_sentiment_summary ncols df).2) := by
  have hgroup : (df.map coerceAspects).filter (fun r => decide (r.college = e)) =
      (df.filter (fun r => decide (r.college = e))).map coerceAspects := by
    rw [List.filter_map]
    rfl
  have hcells : ∀ j',
      ((df.map coerceAspects).filter (fun r => decide (r.college = e))).filterMap
        (fun r => (r.aspects.getD j' (Cell.val none)).num) =
      presentScores df e j' := by
    intro j'
    rw [hgroup, List.filterMap_map]
    have hfun : ((fun r : Row => (r.aspects.getD j' (Cell.val none)).num) ∘ coerceAspects) =
        (fun r : Row => (r.aspects.getD j' (Cell.val none)).num) := by
      funext r
      exact getD_num_map_toNumeric r.aspects j'
    rw [hfun]
    rfl
  have hkeys : e ∈ firstOccur ((df.map coerceAspects).map (fun r => r.college)) := by
    rw [mem_firstOccur, List.map_map]
    exact he
  constructor
  · rintro ⟨j₀, hj₀, hne₀⟩
    refine ⟨(List.range ncols).map (fun j' => listMean (presentScores df e j')),
      ?_, by simp, ?_⟩
    · rw [calculate_aspect_sentiment_summary]
      simp only [List.mem_filterMap]
      refine ⟨e, hkeys, ?_⟩
      have hrow : (List.range ncols).map (fun j' =>
          listMean (((df.map coerceAspects).filter (fun r => decide (r.college = e))).filterMap
            (fun r => (r.aspects.getD j' (Cell.val none)).num))) =
          (List.range ncols).map (fun j' => listMean (presentScores df e j')) := by
        apply List.map_congr_left
        intro j' _
        rw [hcells j']
      rw [hrow, if_neg]
      intro hall
      rw [List.all_eq_true] at hall
      have hmem : listMean (presentScores df e j₀) ∈
          (List.range ncols).map (fun j' => listMean (presentScores df e j')) :=
        List.mem_map_of_mem _ (List.mem_range.mpr hj₀)
      have hnone := hall _ hmem
      rw [listMean, if_neg (by simpa [List.isEmpty_iff] using hne₀)] at hnone
      simp at hnone
    · rw [List.getD_eq_getElem?_getD, List.getElem?_map, List.getElem?_range hj]
      simp only [Option.map_some', Option.getD_some]
      rw [listMean]
      by_cases hemp : presentScores df e j = []
      · rw [if_pos (by simpa [List.isEmpty_iff] using hemp), if_pos hemp]
      · rw [if_neg (by simpa [List.isEmpty_iff] using hemp), if_neg hemp]
  · intro hall row hmem
    rw [calculate_aspect_sentiment_summary] at hmem
    simp only [List.mem_filterMap] at hmem
    obtain ⟨a, _, hfa⟩ := hmem
    by_cases hcond : ((List.range ncols).map (fun j' =>
        listMean (((df.map coerceAspects).filter (fun r => decide (r.college = a))).filterMap
          (fun r => (r.aspects.getD j' (Cell.val none)).num)))).all Option.isNone
    · rw [if_pos hcond] at hfa
      exact Option.noConfusion hfa
    · rw [if_neg hcond] at hfa
      have hae : a = e := (Prod.mk.injEq _ _ _ _).mp (Option.some.injEq _ _ |>.mp hfa) |>.1
      subst hae
      apply hcond
      rw [List.all_eq_true]
      intro x hx
      rw [List.mem_map] at hx
      obtain ⟨j', hj', rfl⟩ := hx
      rw [hcells j', hall j' (List.mem_range.mp hj')]
      rfl

def c5Row (a : Cell) : Row :=
  { college := "E".data, compound := Cell.val none, aspects := [a],
    created_utc := 0, text := [], permalink := [] }

def c5df : List Row :=
  [c5Row (Cell.val none), c5Row (Cell.val none),
   c5Row (Cell.val (some (mkRat 2 5)))]

/-- Witness for C5: a college whose single aspect column reads
null, null, 0.4 over its three documents summarizes to the cell 0.4
(mean over the one non-null document), not 0.4/3. -/
theorem aspect_summary_cells_witness :
    ∃ row, ("E".data, row) ∈ (calculate_aspect_sentiment_summary 1 c5df).2 ∧
      row.getD 0 none = some (mkRat 2 5) := by
  obtain ⟨row, hmem, _, hcell⟩ :=
    (aspect_summary_cells 1 c5df "E".data 0 (by decide) (by decide)).1
      ⟨0, by decide, by decide⟩
  refine ⟨row, hmem, ?_⟩
  rw [hcell]
  have hps : presentScores c5df "E".data 0 = [mkRat 2 5] := by decide
  rw [hps]
  simp

/-! ### C8: the effect of the summarizer operations on their input frame

`calculate_sentiment_trends` works on `.copy()` (line 61) and leaves the
caller's frame alone.  The other three assign a coerced column back onto
the caller's frame (`df[sentiment_col] = pd.to_numeric(...)` at lines 18
and 89, `df[col] = pd.to_numeric(df[col], ...)` at line 43), which is an
observable in-place mutation whenever a scored cell is non-numeric. -/

theorem coerceCompound_eq_self (r : Row) (h : r.compound.toNumeric = r.compound) :
    coerceCompound r = r := by
  cases r
  simp only [coerceCompound] at *
  rw [h]

theorem coerceAspects_eq_self (r : Row) (h : r.aspects.map Cell.toNumeric = r.aspects) :
    coerceAspects r = r := by
  cases r
  simp only [coerceAspects] at *
  rw [h]

/-- C8 (amended): `calculate_sentiment_trends` always returns its input
frame unchanged; the other three operations overwrite exactly the scored
column(s) with their numeric coercion (every other field untouched), so
each of them leaves the input frame unchanged precisely when those
columns are already numeric. -/
theorem summarizer_frame_effects (sortD sortA : List Row → List Row)
    (n ncols : Nat) (df : List Row) :
    (calculate_sentiment_trends df).1 = df ∧
    (calculate_overall_sentiment df).1 = df.map coerceCompound ∧
    (calculate_aspect_sentiment_summary ncols df).1 = df.map coerceAspects ∧
    (find_top_reviews sortD sortA n df).1 = df.map coerceCompound ∧
    ((∀ r ∈ df, r.compound.toNumeric = r.compound) →
      (calculate_overall_sentiment df).1 = df ∧
      (find_top_reviews sortD sortA n df).1 = df) ∧
    ((∀ r ∈ df, r.aspects.map Cell.toNumeric = r.aspects) →
      (calculate_aspect_sentiment_summary ncols df).1 = df) := by
  have hmapc : (∀ r ∈ df, r.compound.toNumeric = r.compound) →
      df.map coerceCompound = df := by
    intro h
    conv_rhs => rw [← List.map_id df]
    exact List.map_congr_left fun r hr => coerceCompound_eq_self r (h r hr)
  have hmapa : (∀ r ∈ df, r.aspects.map Cell.toNumeric = r.aspects) →
      df.map coerceAspects = df := by
    intro h
    conv_rhs => rw [← List.map_id df]
    exact List.map_congr_left fun r hr => coerceAspects_eq_self r (h r hr)
  exact ⟨rfl, rfl, rfl, rfl, fun h => ⟨hmapc h, hmapc h⟩, fun h => hmapa h⟩

def junkRow : Row :=
  { college := "E".data, compound := Cell.junk, aspects := [Cell.junk],
    created_utc := 0, text := [], permalink := [] }

/-- Counterexample for C8 as stated: `calculate_overall_sentiment` is not
a pure reader of its input — the in-place
`df[sentiment_col] = pd.to_numeric(df[sentiment_col], errors='coerce')`
overwrites a non-numeric sentiment cell with NaN, so the caller's frame
differs from the input after the call. -/
theorem overall_sentiment_mutates_input :
    (calculate_overall_sentiment [junkRow]).1 ≠ [junkRow] := by decide

/-- Witness for C8: on a frame whose scored columns are already numeric,
all four operations leave the input frame unchanged. -/
theorem summarizer_frame_effects_witness :
    (calculate_overall_sentiment c5df).1 = c5df ∧
    (find_top_reviews id id 5 c5df).1 = c5df ∧
    (calculate_aspect_sentiment_summary 1 c5df).1 = c5df ∧
    (calculate_sentiment_trends c5df).1 = c5df := by
  obtain ⟨ht, _, _, _, hnum, hasp⟩ := summarizer_frame_effects id id 5 1 c5df
  obtain ⟨h1, h2⟩ := hnum (by decide)
  exact ⟨h1, h2, hasp (by decide), ht⟩

/-! ### C7: calendar-month trend buckets -/

/-- C7: the trend table has a row for calendar month `p` exactly when some
document with a valid sentiment falls in that month (buckets with zero
valid documents are absent, never zero-filled); a present row carries the
mean and the count of exactly that month's valid documents.  Buckets
follow the calendar, not 30-day windows: 2021-01-01 and 2021-01-31
(30 days apart) share a bucket while 2021-01-31 and 2021-02-01 (one day
apart) do not. -/
theorem trends_calendar_buckets (df : List Row) (p : Int × Int) :
    ((∃ r ∈ df, (r.compound.num).isSome ∧ monthOf r.created_utc = p) ↔
      ∃ mc, (p, mc) ∈ (calculate_sentiment_trends df).2) ∧
    (∀ m cnt, (p, m, cnt) ∈ (calculate_sentiment_trends df).2 →
      monthScores df p ≠ [] ∧
      m = (monthScores df p).sum / ((monthScores df p).length : ℚ) ∧
      cnt = (monthScores df p).length) ∧
    monthOf 1609459200 = monthOf 1612051200 ∧
    monthOf 1612051200 ≠ monthOf 1612137600 := by
  have hmemsort : ∀ x, x ∈ (calculate_sentiment_trends df).2 ↔
      x ∈ (firstOccur ((trendValid df).map Prod.fst)).map (fun mth =>
           (mth, ((monthScores df mth).sum / ((monthScores df mth).length : ℚ),
                  (monthScores df mth).length))) := by
    intro x
    exact (List.perm_insertionSort monthLeRel _).mem_iff
  have hvalid_iff : ∀ q₀, (p, q₀) ∈ trendValid df ↔
      ∃ r ∈ df, r.compound.num = some q₀ ∧ monthOf r.created_utc = p := by
    intro q₀
    rw [trendValid, List.mem_filterMap]
    constructor
    · rintro ⟨r, hr, hfr⟩
      cases hq : r.compound.num with
      | none => simp [hq] at hfr
      | some q =>
          simp only [hq, Option.map_some', Option.some.injEq, Prod.mk.injEq] at hfr
          refine ⟨r, hr, ?_, hfr.1⟩
          rw [hq, hfr.2]
    · rintro ⟨r, hr, hnum, hmon⟩
      refine ⟨r, hr, ?_⟩
      rw [hnum, Option.map_some', hmon]
  refine ⟨?_, ?_, by decide, by decide⟩
  · constructor
    · rintro ⟨r, hr, hsome, hmon⟩
      obtain ⟨q, hq⟩ := Option.isSome_iff_exists.mp hsome
      have hmemv : (p, q) ∈ trendValid df := (hvalid_iff q).mpr ⟨r, hr, hq, hmon⟩
      have hpkeys : p ∈ firstOccur ((trendValid df).map Prod.fst) := by
        rw [mem_firstOccur]
        exact List.mem_map_of_mem Prod.fst hmemv
      exact ⟨_, (hmemsort _).mpr (List.mem_map_of_mem _ hpkeys)⟩
    · rintro ⟨mc, hmc⟩
      rw [hmemsort, List.mem_map] at hmc
      obtain ⟨mth, hmth, heq⟩ := hmc
      have hmthp : mth = p := congrArg Prod.fst heq
      subst hmthp
      rw [mem_firstOccur, List.mem_map] at hmth
      obtain ⟨x, hx, hfst⟩ := hmth
      obtain ⟨x1, x2⟩ := x
      simp only at hfst
      subst hfst
      obtain ⟨r, hr, hnum, hmon⟩ := (hvalid_iff x2).mp hx
      refine ⟨r, hr, ?_, hmon⟩
      rw [hnum]
      rfl
  · intro m cnt hmc
    rw [hmemsort, List.mem_map] at hmc
    obtain ⟨mth, hmth, heq⟩ := hmc
    have hmthp : mth = p := congrArg Prod.fst heq
    subst hmthp
    have h2 := congrArg Prod.snd heq
    refine ⟨?_, (congrArg Prod.fst h2).symm, (congrArg Prod.snd h2).symm⟩
    rw [mem_firstOccur, List.mem_map] at hmth
    obtain ⟨x, hx, hfst⟩ := hmth
    have hxin : x.2 ∈ monthScores df mth := by
      rw [monthScores]
      exact List.mem_map_of_mem Prod.snd (List.mem_filter.mpr ⟨hx, decide_eq_true hfst⟩)
    exact List.ne_nil_of_mem hxin

def trendRow (ts : Int) (q : ℚ) : Row :=
  { college := "E".data, compound := Cell.val (some q), aspects := [],
    created_utc := ts, text := [], permalink := [] }

def c7df : List Row :=
  [trendRow 1609459200 1, trendRow 1612051200 0, trendRow 1612137600 1]

/-- Witness for C7: with documents on 2021-01-01, 2021-01-31 and
2021-02-01, the January 2021 bucket is present, the two timestamps 30
days apart share a bucket, and the two timestamps one day apart do
not. -/
theorem trends_calendar_buckets_witness :
    (∃ mc, ((2021, 1), mc) ∈ (calculate_sentiment_trends c7df).2) ∧
    monthOf 1609459200 = monthOf 1612051200 ∧
    monthOf 1612051200 ≠ monthOf 1612137600 :=
  ⟨(trends_calendar_buckets c7df (2021, 1)).1.mp
      ⟨trendRow 1609459200 1, by decide, by decide, by decide⟩,
   (trends_calendar_buckets c7df (2021, 1)).2.2.1,
   (trends_calendar_buckets c7df (2021, 1)).2.2.2⟩

/-! ### C6 and C10: top-k extremal review selection -/

/-- The "positive" record list emitted for college `e`: the first `n` of
the group, sorted descending by sentiment. -/
def topPos (sortD : List Row → List Row) (n : Nat) (df : List Row)
    (e : List Char) : List (List Char × ℚ × List Char) :=
  ((sortD (validGroup df e)).take n).map reviewRecord

/-- The "negative" record list emitted for college `e`: the last `n` of
the descending-sorted group (`DataFrame.tail`), re-sorted ascending. -/
def topNeg (sortD sortA : List Row → List Row) (n : Nat) (df : List Row)
    (e : List Char) : List (List Char × ℚ × List Char) :=
  (sortA ((sortD (validGroup df e)).drop
    ((sortD (validGroup df e)).length - n))).map reviewRecord

theorem find_top_reviews_entry (sortD sortA : List Row → List Row) (n : Nat)
    (df : List Row) (e : List Char) (hg : validGroup df e ≠ []) :
    (e, topPos sortD n df e, topNeg sortD sortA n df e) ∈
      (find_top_reviews sortD sortA n df).2 := by
  obtain ⟨r, hr⟩ := List.exists_mem_of_ne_nil _ hg
  have hrv : r ∈ (df.map coerceCompound).filter
      (fun r => (r.compound.num).isSome) := (List.mem_filter.mp hr).1
  have hre : r.college = e := of_decide_eq_true (List.mem_filter.mp hr).2
  have hekeys : e ∈ firstOccur
      (((df.map coerceCompound).filter (fun r => (r.compound.num).isSome)).map
        (fun r => r.college)) := by
    rw [mem_firstOccur]
    exact List.mem_map.mpr ⟨r, hrv, hre⟩
  exact List.mem_map_of_mem _ hekeys

theorem pairwise_take_drop {α : Type} {R : α → α → Prop} {l : List α}
    (h : l.Pairwise R) (n : Nat) :
    ∀ a ∈ l.take n, ∀ b ∈ l.drop n, R a b := by
  rw [← List.take_append_drop n l] at h
  exact (List.pairwise_append.mp h).2.2

theorem topPos_small (sortD : List Row → List Row) (hD : SortsDesc sortD)
    (n : Nat) (df : List Row) (e : List Char)
    (hle : (validGroup df e).length ≤ n) :
    topPos sortD n df e = (sortD (validGroup df e)).map reviewRecord := by
  rw [topPos, List.take_of_length_le]
  rw [(hD (validGroup df e)).1.length_eq]
  exact hle

theorem topNeg_small (sortD sortA : List Row → List Row) (hD : SortsDesc sortD)
    (n : Nat) (df : List Row) (e : List Char)
    (hle : (validGroup df e).length ≤ n) :
    topNeg sortD sortA n df e =
      (sortA (sortD (validGroup df e))).map reviewRecord := by
  rw [topNeg]
  have hz : (sortD (validGroup df e)).length - n = 0 := by
    rw [(hD (validGroup df e)).1.length_eq]
    omega
  rw [hz, List.drop_zero]

/-- C6 (amended): for any sorting kernels meeting the pandas
`sort_values` contract (a permutation of the input ordered by the key —
the default `kind='quicksort'` promises nothing about the order of tied
keys), each college with at least one valid-sentiment document gets an
entry whose "positive" list is the first `n` of the group sorted
descending and whose "negative" list is the last `n` re-sorted ascending
(lowest first); both lists have length `min n (group size)` — a college
with fewer than `n` documents yields exactly its documents, no padding
and no failure; every "positive" record outscores every unselected one;
and when the group is at most `n` both lists are the whole group. -/
theorem top_reviews_per_college (sortD sortA : List Row → List Row)
    (hD : SortsDesc sortD) (hA : SortsAsc sortA) (n : Nat) (df : List Row)
    (e : List Char) (hn : 0 < n) (hg : validGroup df e ≠ []) :
    (e, topPos sortD n df e, topNeg sortD sortA n df e) ∈
      (find_top_reviews sortD sortA n df).2 ∧
    (topPos sortD n df e).length = min n (validGroup df e).length ∧
    (topNeg sortD sortA n df e).length = min n (validGroup df e).length ∧
    (topPos sortD n df e).Pairwise (fun a b => b.2.1 ≤ a.2.1) ∧
    (topNeg sortD sortA n df e).Pairwise (fun a b => a.2.1 ≤ b.2.1) ∧
    (∀ x ∈ topPos sortD n df e, ∃ r ∈ validGroup df e, x = reviewRecord r) ∧
    (∀ x ∈ topNeg sortD sortA n df e, ∃ r ∈ validGroup df e, x = reviewRecord r) ∧
    (∀ a ∈ (sortD (validGroup df e)).take n,
      ∀ b ∈ (sortD (validGroup df e)).drop n, scoreKey b ≤ scoreKey a) ∧
    (∀ a ∈ (sortD (validGroup df e)).drop ((sortD (validGroup df e)).length - n),
      ∀ b ∈ (sortD (validGroup df e)).take ((sortD (validGroup df e)).length - n),
        scoreKey a ≤ scoreKey b) ∧
    ((validGroup df e).length ≤ n →
      (topPos sortD n df e).Perm ((validGroup df e).map reviewRecord) ∧
      (topNeg sortD sortA n df e).Perm ((validGroup df e).map reviewRecord)) := by
  have hlen : (sortD (validGroup df e)).length = (validGroup df e).length :=
    (hD (validGroup df e)).1.length_eq
  have hlenA : ∀ l, (sortA l).length = l.length := fun l => (hA l).1.length_eq
  refine ⟨find_top_reviews_entry sortD sortA n df e hg, ?_, ?_, ?_, ?_, ?_, ?_, ?_, ?_, ?_⟩
  · rw [topPos, List.length_map, List.length_take, hlen]
  · rw [topNeg, List.length_map, hlenA, List.length_drop, hlen]
    omega
  · exact ((hD (validGroup df e)).2.sublist (List.take_sublist n _)).map reviewRecord
      (fun a b hab => hab)
  · exact (hA _).2.map reviewRecord (fun a b hab => hab)
  · intro x hx
    rw [topPos, List.mem_map] at hx
    obtain ⟨y, hy, rfl⟩ := hx
    exact ⟨y, (hD (validGroup df e)).1.mem_iff.mp (List.mem_of_mem_take hy), rfl⟩
  · intro x hx
    rw [topNeg, List.mem_map] at hx
    obtain ⟨y, hy, rfl⟩ := hx
    have hy2 := (hA _).1.mem_iff.mp hy
    exact ⟨y, (hD (validGroup df e)).1.mem_iff.mp (List.mem_of_mem_drop hy2), rfl⟩
  · exact pairwise_take_drop (hD (validGroup df e)).2 n
  · intro a ha b hb
    exact pairwise_take_drop (hD (validGroup df e)).2
      ((sortD (validGroup df e)).length - n) b hb a ha
  · intro hle
    constructor
    · rw [topPos_small sortD hD n df e hle]
      exact ((hD (validGroup df e)).1).map reviewRecord
    · rw [topNeg_small sortD sortA hD n df e hle]
      exact (((hA _).1).trans ((hD (validGroup df e)).1)).map reviewRecord

def goodSortD (l : List Row) : List Row := List.insertionSort rowDescRel l

def goodSortA (l : List Row) : List Row := List.insertionSort rowAscRel l

theorem goodSortD_sorts : SortsDesc goodSortD := fun l =>
  ⟨List.perm_insertionSort rowDescRel l, List.sorted_insertionSort rowDescRel l⟩

theorem goodSortA_sorts : SortsAsc goodSortA := fun l =>
  ⟨List.perm_insertionSort rowAscRel l, List.sorted_insertionSort rowAscRel l⟩

/-- A sorting kernel that also meets the pandas `sort_values` contract
but breaks ties in reverse input order (it stably sorts the reversed
list) — the contract of the default unstable `kind='quicksort'` does not
exclude it. -/
def badSortD (l : List Row) : List Row := List.insertionSort rowDescRel l.reverse

def badSortA (l : List Row) : List Row := List.insertionSort rowAscRel l.reverse

def c6Row (t : String) (q : ℚ) : Row :=
  { college := "E".data, compound := Cell.val (some q), aspects := [],
    created_utc := 0, text := t.data, permalink := t.data }

def c6df : List Row := [c6Row "a" 1, c6Row "b" 0]

def c6tie : List Row := [c6Row "a" 1, c6Row "b" 1]

instance : DecidableEq
    (List (List Char × ℚ × List Char) × List (List Char × ℚ × List Char)) :=
  inferInstance

instance : DecidableEq
    (List Char × List (List Char × ℚ × List Char) ×
      List (List Char × ℚ × List Char)) :=
  @instDecidableEqProd _ _ inferInstance inferInstance

/-- Counterexample for C6 as stated: the claim promises ties broken by
original input order (a stable sort), but `sort_values` with the default
`kind='quicksort'` only guarantees a sorted permutation.  A kernel
meeting that guarantee can return the two tied documents of the input
`[a, b]` as `[b, a]`: the "positive" list then starts with `b`, not the
claimed input-order `a`. -/
theorem top_reviews_tie_order_not_input_order :
    SortsDesc badSortD ∧ SortsAsc badSortA ∧
    (find_top_reviews badSortD badSortA 5 c6tie).2 =
      [("E".data, [reviewRecord (c6Row "b" 1), reviewRecord (c6Row "a" 1)],
                  [reviewRecord (c6Row "a" 1), reviewRecord (c6Row "b" 1)])] ∧
    reviewRecord (c6Row "b" 1) ≠ reviewRecord (c6Row "a" 1) := by
  refine ⟨?_, ?_, by decide, by decide⟩
  · intro l
    exact ⟨(List.perm_insertionSort rowDescRel l.reverse).trans (List.reverse_perm l),
           List.sorted_insertionSort rowDescRel l.reverse⟩
  · intro l
    exact ⟨(List.perm_insertionSort rowAscRel l.reverse).trans (List.reverse_perm l),
           List.sorted_insertionSort rowAscRel l.reverse⟩

/-- Witness for C6: a college with 2 valid documents and `n = 5` yields
exactly 2 positive and 2 negative records — no padding, no failure. -/
theorem top_reviews_per_college_witness :
    (("E".data, topPos goodSortD 5 c6df "E".data,
        topNeg goodSortD goodSortA 5 c6df "E".data) ∈
      (find_top_reviews goodSortD goodSortA 5 c6df).2) ∧
    (topPos goodSortD 5 c6df "E".data).length = 2 ∧
    (topNeg goodSortD goodSortA 5 c6df "E".data).length = 2 := by
  obtain ⟨hmem, hlp, hln, _⟩ := top_reviews_per_college goodSortD goodSortA
    goodSortD_sorts goodSortA_sorts 5 c6df "E".data (by decide) (by decide)
  refine ⟨hmem, ?_, ?_⟩
  · rw [hlp]
    decide
  · rw [hln]
    decide

/-- C10: the "positive" and "negative" lists are not disjoint in general:
whenever a college has fewer than `2n` valid documents the two lists
share a record, and with at most `n` valid documents they are
permutations of each other (the whole group, ordered descending and
ascending respectively). -/
theorem top_reviews_nondisjoint (sortD sortA : List Row → List Row)
    (hD : SortsDesc sortD) (hA : SortsAsc sortA) (n : Nat) (df : List Row)
    (e : List Char) (hn : 0 < n) (hg : validGroup df e ≠ []) :
    (e, topPos sortD n df e, topNeg sortD sortA n df e) ∈
      (find_top_reviews sortD sortA n df).2 ∧
    ((validGroup df e).length < 2 * n →
      ∃ x, x ∈ topPos sortD n df e ∧ x ∈ topNeg sortD sortA n df e) ∧
    ((validGroup df e).length ≤ n →
      (topPos sortD n df e).Perm (topNeg sortD sortA n df e)) := by
  have hlen : (sortD (validGroup df e)).length = (validGroup df e).length :=
    (hD (validGroup df e)).1.length_eq
  have hposlen : 0 < (validGroup df e).length := List.length_pos_of_ne_nil hg
  refine ⟨find_top_reviews_entry sortD sortA n df e hg, ?_, ?_⟩
  · intro hlt
    have hidx : (sortD (validGroup df e)).length - n < (sortD (validGroup df e)).length := by
      omega
    refine ⟨reviewRecord ((sortD (validGroup df e)).get
      ⟨(sortD (validGroup df e)).length - n, hidx⟩), ?_, ?_⟩
    · rw [topPos]
      apply List.mem_map_of_mem
      have hidx2 : (sortD (validGroup df e)).length - n <
          ((sortD (validGroup df e)).take n).length := by
        rw [List.length_take]
        omega
      have heq : ((sortD (validGroup df e)).take n).get
          ⟨(sortD (validGroup df e)).length - n, hidx2⟩ =
          (sortD (validGroup df e)).get
            ⟨(sortD (validGroup df e)).length - n, hidx⟩ := by
        rw [List.get_eq_getElem, List.get_eq_getElem, List.getElem_take]
      rw [← heq]
      exact List.get_mem _ _ _
    · rw [topNeg]
      apply List.mem_map_of_mem
      rw [(hA _).1.mem_iff]
      have hdroplen : 0 < ((sortD (validGroup df e)).drop
          ((sortD (validGroup df e)).length - n)).length := by
        rw [List.length_drop]
        omega
      have hget : ((sortD (validGroup df e)).drop
          ((sortD (validGroup df e)).length - n)).get ⟨0, hdroplen⟩ =
          (sortD (validGroup df e)).get
            ⟨(sortD (validGroup df e)).length - n, hidx⟩ := by
        rw [List.get_eq_getElem, List.get_eq_getElem, List.getElem_drop]
        simp
      rw [← hget]
      exact List.get_mem _ _ _
  · intro hle
    rw [topPos_small sortD hD n df e hle, topNeg_small sortD sortA hD n df e hle]
    exact ((hD _).1.map reviewRecord).trans
      (((hA _).1.trans (hD _).1).map reviewRecord).symm

/-- Witness for C10: a college with 2 valid documents and `n = 5` has
overlapping positive/negative lists, indeed permutations of each
other. -/
theorem top_reviews_nondisjoint_witness :
    (∃ x, x ∈ topPos goodSortD 5 c6df "E".data ∧
       x ∈ topNeg goodSortD goodSortA 5 c6df "E".data) ∧
    (topPos goodSortD 5 c6df "E".data).Perm
      (topNeg goodSortD goodSortA 5 c6df "E".data) := by
  obtain ⟨_, h1, h2⟩ := top_reviews_nondisjoint goodSortD goodSortA
    goodSortD_sorts goodSortA_sorts 5 c6df "E".data (by decide) (by decide)
  exact ⟨h1 (by decide), h2 (by decide)⟩

/-! ## Text normalizer (src/cleaner.py, lines 27-50)

`clean_text` lowercases and then applies seven `re.sub`/filter passes and
a whitespace collapse.  Each regex substitution is embedded as a
left-to-right scanner: at every position it tries to match the pattern at
the front (mirroring the engine's alternation and greedy/lazy repetition
order) and either removes/replaces the match and resumes after it, or
keeps the character and moves on.  The scanners recurse on structurally
smaller fuel (`length + 1` always suffices, since every step consumes at
least one character), keeping every definition kernel-computable.
Python's `\s`/`str.split` whitespace is modelled by `Char.isWhitespace`
(space, tab, CR, LF); a non-string input, which the source maps to `""`,
is the caller's concern. -/

def isLowerAlpha (c : Char) : Bool := decide (97 ≤ c.toNat ∧ c.toNat ≤ 122)

def nonSpaceRun (l : List Char) : Nat :=
  (l.takeWhile (fun c => !c.isWhitespace)).length

/-- A match of `http\S+|www\S+|https\S+` at the front of `l`: the number
of characters consumed.  (The `https\S+` branch can never fire: wherever
it matches, the earlier `http\S+` branch already matched.) -/
def urlAt (l : List Char) : Option Nat :=
  if l.take 4 = "http".data then
    if 0 < nonSpaceRun (l.drop 4) then some (4 + nonSpaceRun (l.drop 4)) else none
  else if l.take 3 = "www".data then
    if 0 < nonSpaceRun (l.drop 3) then some (3 + nonSpaceRun (l.drop 3)) else none
  else none

def urlSubF : Nat → List Char → List Char
  | 0, l => l
  | _ + 1, [] => []
  | fuel + 1, c :: cs =>
    match urlAt (c :: cs) with
    | some d => urlSubF fuel ((c :: cs).drop d)
    | none => c :: urlSubF fuel cs

/-- `re.sub(r'http\S+|www\S+|https\S+', '', text)`. -/
def urlSub (l : List Char) : List Char := urlSubF (l.length + 1) l

def wordRun (l : List Char) : Nat := (l.takeWhile isWordChar).length

/-- A match of `/?u/\w+` (`u` is `u` or `r`) at the front of `l`, trying
the slash-prefixed alternative first, as the engine's `?` does. -/
def mentionAt (u : Char) (l : List Char) : Option Nat :=
  if l.getD 0 ' ' = '/' ∧ l.getD 1 ' ' = u ∧ l.getD 2 ' ' = '/' ∧
      0 < wordRun (l.drop 3) then
    some (3 + wordRun (l.drop 3))
  else if l.getD 0 ' ' = u ∧ l.getD 1 ' ' = '/' ∧ 0 < wordRun (l.drop 2) then
    some (2 + wordRun (l.drop 2))
  else none

def mentionSubF : Nat → List Char → List Char
  | 0, l => l
  | _ + 1, [] => []
  | fuel + 1, c :: cs =>
    match mentionAt 'u' (c :: cs) with
    | some d => mentionSubF fuel ((c :: cs).drop d)
    | none =>
      match mentionAt 'r' (c :: cs) with
      | some d => mentionSubF fuel ((c :: cs).drop d)
      | none => c :: mentionSubF fuel cs

/-- `re.sub(r'/?u/\w+|/?r/\w+', '', text)`. -/
def mentionSub (l : List Char) : List Char := mentionSubF (l.length + 1) l

/-- `re.sub(r'[*_`~]', '', text)` (the backtick written by code point). -/
def starFilter (l : List Char) : List Char :=
  l.filter (fun c => !(c == '*' || c == '_' || c == Char.ofNat 96 || c == '~'))

/-- A match of the lazy markdown-link pattern `\[(.*?)\]\(.*?\)` at the
front of `l`: the captured link text and the characters consumed.  The
nested searches mirror lazy matching with backtracking — shortest text
part first, and for each, shortest URL part; `.` does not cross a
newline. -/
def linkAt (l : List Char) : Option (List Char × Nat) :=
  if l.take 1 = ['['] then
    (List.range ((l.drop 1).length + 1)).findSome? (fun k =>
      if ((l.drop 1).take k).all (fun c => !(c == '\n')) ∧
          ((l.drop 1).drop k).take 2 = [']', '('] then
        (List.range (((l.drop 1).drop (k + 2)).length + 1)).findSome? (fun m =>
          if (((l.drop 1).drop (k + 2)).take m).all (fun c => !(c == '\n')) ∧
              (((l.drop 1).drop (k + 2)).drop m).take 1 = [')'] then
            some ((l.drop 1).take k, k + m + 4)
          else none)
      else none)
  else none

def linkSubF : Nat → List Char → List Char
  | 0, l => l
  | _ + 1, [] => []
  | fuel + 1, c :: cs =>
    match linkAt (c :: cs) with
    | some (t, d) => t ++ linkSubF fuel ((c :: cs).drop d)
    | none => c :: linkSubF fuel cs

/-- `re.sub(r'\[(.*?)\]\(.*?\)', r'\1', text)`. -/
def linkSub (l : List Char) : List Char := linkSubF (l.length + 1) l

/-- `re.sub(r'^>.*$', '', text, flags=re.MULTILINE)`: a line starting
with `>` loses its whole content (`.*` stops before the newline, which
survives). -/
def stripBQF : Nat → Bool → List Char → List Char
  | 0, _, l => l
  | _ + 1, _, [] => []
  | fuel + 1, lineStart, c :: cs =>
    if lineStart ∧ c = '>' then
      stripBQF fuel false (cs.dropWhile (fun d => !(d == '\n')))
    else c :: stripBQF fuel (c == '\n') cs

def blockquoteSub (l : List Char) : List Char := stripBQF (l.length + 1) true l

def wordRunLower (l : List Char) : Nat := (l.takeWhile isLowerAlpha).length

/-- A match of `&[a-z]+;` at the front: `&`, a maximal nonempty run of
lowercase letters, then `;` (a shorter run cannot match — the character
after it is a lowercase letter, not `;`). -/
def entityAt (l : List Char) : Option Nat :=
  if l.take 1 = ['&'] then
    if 0 < wordRunLower (l.drop 1) ∧
        ((l.drop 1).drop (wordRunLower (l.drop 1))).take 1 = [';'] then
      some (wordRunLower (l.drop 1) + 2)
    else none
  else none

def entitySubF : Nat → List Char → List Char
  | 0, l => l
  | _ + 1, [] => []
  | fuel + 1, c :: cs =>
    match entityAt (c :: cs) with
    | some d => entitySubF fuel ((c :: cs).drop d)
    | none => c :: entitySubF fuel cs

/-- `re.sub(r'&[a-z]+;', '', text)`. -/
def entitySub (l : List Char) : List Char := entitySubF (l.length + 1) l

/-- `re.sub(r"[^a-z\s.,?!']", '', text)`: keep lowercase letters,
whitespace, the four punctuation marks and the apostrophe (code point
39). -/
def isKeptChar (c : Char) : Bool :=
  isLowerAlpha c || c.isWhitespace || c == '.' || c == ',' || c == '?' ||
    c == '!' || c == Char.ofNat 39

def charFilter (l : List Char) : List Char := l.filter isKeptChar

/-- `str.split()`: split on whitespace runs, dropping empty pieces. -/
def splitWSAux : List Char → List Char → List (List Char)
  | cur, [] => if cur.isEmpty then [] else [cur.reverse]
  | cur, c :: cs =>
    if c.isWhitespace then
      if cur.isEmpty then splitWSAux [] cs else cur.reverse :: splitWSAux [] cs
    else splitWSAux (c :: cur) cs

def pySplit (l : List Char) : List (List Char) := splitWSAux [] l

/-- `' '.join(words)`. -/
def joinWS : List (List Char) → List Char
  | [] => []
  | [w] => w
  | w :: ws => w ++ ' ' :: joinWS ws

/-- `' '.join(text.split())`. -/
def normalizeWS (l : List Char) : List Char := joinWS (pySplit l)

/-- src/cleaner.py lines 27-50, the cleaning passes in source order. -/
def clean_text (text : List Char) : List Char :=
  normalizeWS (charFilter (entitySub (blockquoteSub (linkSub (starFilter
    (mentionSub (urlSub (text.map Char.toLower))))))))

/-! ### C9: idempotence analysis of `clean_text`

A first pass leaves only lowercase letters, single spaces and the five
kept punctuation marks, so on a second pass every stage except the URL
removal is the identity; the URL stage, however, can fire on output the
character filter fabricated (e.g. `"ht3tpx"` cleans to `"httpx"`, which a
second pass deletes as a URL).  Hence `clean_text` is idempotent exactly
on inputs whose cleaned form contains no URL-pattern match. -/

/-- The characters `clean_text` can emit: lowercase letters, the space,
`. , ? !` and the apostrophe. -/
def cleanChar (c : Char) : Bool :=
  isLowerAlpha c || c == ' ' || c == '.' || c == ',' || c == '?' ||
    c == '!' || c == Char.ofNat 39

theorem cleanChar_props (c : Char) (h : cleanChar c = true) :
    c ≠ '/' ∧ c ≠ '[' ∧ c ≠ '>' ∧ c ≠ '\n' ∧ c ≠ '&' ∧ c ≠ '*' ∧ c ≠ '_' ∧
      c ≠ Char.ofNat 96 ∧ c ≠ '~' ∧ isKeptChar c = true := by
  simp only [cleanChar, Bool.or_eq_true, beq_iff_eq] at h
  rcases h with ((((((h | rfl) | rfl) | rfl) | rfl) | rfl) | rfl)
  · have hlo := of_decide_eq_true h
    refine ⟨?_, ?_, ?_, ?_, ?_, ?_, ?_, ?_, ?_, ?_⟩
    all_goals first
      | (intro he; subst he; exact absurd hlo (by decide))
      | (simp only [isKeptChar, Bool.or_eq_true]
         exact Or.inl (Or.inl (Or.inl (Or.inl (Or.inl (Or.inl h))))))
  all_goals exact ⟨by decide, by decide, by decide, by decide,
    by decide, by decide, by decide, by decide, by decide, by decide⟩

theorem toLower_cleanChar (c : Char) (h : cleanChar c = true) :
    c.toLower = c := by
  have hn : c.toNat < 65 ∨ 90 < c.toNat := by
    simp only [cleanChar, Bool.or_eq_true, beq_iff_eq] at h
    rcases h with ((((((h | rfl) | rfl) | rfl) | rfl) | rfl) | rfl)
    · have hlo := of_decide_eq_true h
      omega
    all_goals decide
  simp only [Char.toLower]
  rw [if_neg (by omega)]

theorem splitWSAux_good (cur l : List Char)
    (hcur : ∀ c ∈ cur, c.isWhitespace = false) :
    ∀ w ∈ splitWSAux cur l,
      w ≠ [] ∧ ∀ c ∈ w, (c ∈ cur ∨ c ∈ l) ∧ c.isWhitespace = false := by
  induction l generalizing cur with
  | nil =>
      intro w hw
      simp only [splitWSAux] at hw
      by_cases hc : cur.isEmpty
      · rw [if_pos hc] at hw
        cases hw
      · rw [if_neg hc] at hw
        rcases List.mem_singleton.mp hw with rfl
        refine ⟨?_, ?_⟩
        · simp only [List.isEmpty_iff] at hc
          simpa using hc
        · intro c hcw
          rw [List.mem_reverse] at hcw
          exact ⟨Or.inl hcw, hcur c hcw⟩
  | cons d ds ih =>
      intro w hw
      simp only [splitWSAux] at hw
      by_cases hd : d.isWhitespace
      · rw [if_pos hd] at hw
        by_cases hc : cur.isEmpty
        · rw [if_pos hc] at hw
          obtain ⟨hne, hmem⟩ := ih [] (fun c hcc => absurd hcc (List.not_mem_nil c)) w hw
          exact ⟨hne, fun c hcw =>
            ⟨Or.inr (List.mem_cons_of_mem d
              (((hmem c hcw).1).resolve_left (List.not_mem_nil c))),
             (hmem c hcw).2⟩⟩
        · rw [if_neg hc] at hw
          rcases List.mem_cons.mp hw with rfl | hw2
          · refine ⟨?_, ?_⟩
            · simp only [List.isEmpty_iff] at hc
              simpa using hc
            · intro c hcw
              rw [List.mem_reverse] at hcw
              exact ⟨Or.inl hcw, hcur c hcw⟩
          · obtain ⟨hne, hmem⟩ := ih [] (fun c hcc => absurd hcc (List.not_mem_nil c)) w hw2
            exact ⟨hne, fun c hcw =>
              ⟨Or.inr (List.mem_cons_of_mem d
                (((hmem c hcw).1).resolve_left (List.not_mem_nil c))),
               (hmem c hcw).2⟩⟩
      · rw [if_neg hd] at hw
        have hd' : d.isWhitespace = false := by
          revert hd
          cases d.isWhitespace <;> simp
        obtain ⟨hne, hmem⟩ := ih (d :: cur) (by
          intro c hcc
          rcases List.mem_cons.mp hcc with rfl | hcc2
          · exact hd'
          · exact hcur c hcc2) w hw
        refine ⟨hne, fun c hcw => ?_⟩
        obtain ⟨hin, hns⟩ := hmem c hcw
        rcases hin with hin | hin
        · rcases List.mem_cons.mp hin with rfl | hin2
          · exact ⟨Or.inr (List.mem_cons_self _ _), hns⟩
          · exact ⟨Or.inl hin2, hns⟩
        · exact ⟨Or.inr (List.mem_cons_of_mem d hin), hns⟩

theorem mem_joinWS (ws : List (List Char)) (c : Char) (hc : c ∈ joinWS ws) :
    c = ' ' ∨ ∃ w ∈ ws, c ∈ w := by
  induction ws with
  | nil => cases hc
  | cons w ws ih =>
      cases ws with
      | nil =>
          simp only [joinWS] at hc
          exact Or.inr ⟨w, List.mem_singleton.mpr rfl, hc⟩
      | cons w2 ws2 =>
          simp only [joinWS] at hc
          rcases List.mem_append.mp hc with h | h
          · exact Or.inr ⟨w, List.mem_cons_self w _, h⟩
          · rcases List.mem_cons.mp h with rfl | h2
            · exact Or.inl rfl
            · rcases ih h2 with h3 | ⟨w3, hw3, hcw3⟩
              · exact Or.inl h3
              · exact Or.inr ⟨w3, List.mem_cons_of_mem w hw3, hcw3⟩

theorem mem_normalizeWS (l : List Char) (c : Char) (hc : c ∈ normalizeWS l) :
    c = ' ' ∨ (c ∈ l ∧ c.isWhitespace = false) := by
  rcases mem_joinWS _ c hc with h | ⟨w, hw, hcw⟩
  · exact Or.inl h
  · obtain ⟨-, hmem⟩ := splitWSAux_good [] l
      (fun c hcc => absurd hcc (List.not_mem_nil c)) w hw
    obtain ⟨hin, hns⟩ := hmem c hcw
    exact Or.inr ⟨hin.resolve_left (List.not_mem_nil c), hns⟩

/-- Every character a cleaning pass emits is a lowercase letter, a single
space, or one of the five kept punctuation marks. -/
theorem clean_text_chars (s : List Char) :
    ∀ c ∈ clean_text s, cleanChar c = true := by
  intro c hc
  rcases mem_normalizeWS _ c hc with rfl | ⟨hin, hns⟩
  · decide
  · have hkept : isKeptChar c = true := (List.mem_filter.mp hin).2
    simp only [isKeptChar, Bool.or_eq_true] at hkept
    rcases hkept with ((((((h | h) | h) | h) | h) | h) | h)
    · simp [cleanChar, h]
    · simp [h] at hns
    all_goals simp [cleanChar, h]

theorem map_toLower_id (l : List Char) (h : ∀ c ∈ l, cleanChar c = true) :
    l.map Char.toLower = l := by
  conv_rhs => rw [← List.map_id l]
  exact List.map_congr_left fun c hc => toLower_cleanChar c (h c hc)

theorem getD_default_or_mem {α : Type} (l : List α) (i : Nat) (d : α) :
    l.getD i d = d ∨ l.getD i d ∈ l := by
  rw [List.getD_eq_getElem?_getD]
  cases h : l[i]? with
  | none => exact Or.inl rfl
  | some a =>
      right
      simp only [Option.getD_some]
      exact List.getElem?_mem h

theorem mentionAt_eq_none (u : Char) (l : List Char)
    (h : ∀ c ∈ l, c ≠ '/') : mentionAt u l = none := by
  have h0 : l.getD 0 ' ' ≠ '/' := by
    rcases getD_default_or_mem l 0 ' ' with hd | hm
    · rw [hd]
      decide
    · exact h _ hm
  have h1 : l.getD 1 ' ' ≠ '/' := by
    rcases getD_default_or_mem l 1 ' ' with hd | hm
    · rw [hd]
      decide
    · exact h _ hm
  rw [mentionAt, if_neg (fun hcond => h0 hcond.1),
    if_neg (fun hcond => h1 hcond.2.1)]

theorem mentionSubF_id (fuel : Nat) (l : List Char)
    (h : ∀ c ∈ l, c ≠ '/') : mentionSubF fuel l = l := by
  induction fuel generalizing l with
  | zero => rfl
  | succ fuel ih =>
      cases l with
      | nil => rfl
      | cons c cs =>
          simp only [mentionSubF, mentionAt_eq_none 'u' _ h,
            mentionAt_eq_none 'r' _ h]
          rw [ih cs (fun d hd => h d (List.mem_cons_of_mem c hd))]

theorem mentionSub_id (l : List Char) (h : ∀ c ∈ l, c ≠ '/') :
    mentionSub l = l :=
  mentionSubF_id _ l h

theorem starFilter_id (l : List Char) (h : ∀ c ∈ l, cleanChar c = true) :
    starFilter l = l := by
  rw [starFilter]
  apply List.filter_eq_self.mpr
  intro c hc
  obtain ⟨-, -, -, -, -, h1, h2, h3, h4, -⟩ := cleanChar_props c (h c hc)
  simp [h1, h2, h3, h4]

theorem linkAt_eq_none (l : List Char) (h : ∀ c ∈ l, c ≠ '[') :
    linkAt l = none := by
  rw [linkAt, if_neg]
  intro hc
  cases l with
  | nil => cases hc
  | cons c cs =>
      simp only [List.take_succ_cons, List.take_zero] at hc
      have : c = '[' := by
        injection hc
      exact h c (List.mem_cons_self c cs) this

theorem linkSubF_id (fuel : Nat) (l : List Char)
    (h : ∀ c ∈ l, c ≠ '[') : linkSubF fuel l = l := by
  induction fuel generalizing l with
  | zero => rfl
  | succ fuel ih =>
      cases l with
      | nil => rfl
      | cons c cs =>
          simp only [linkSubF, linkAt_eq_none _ h]
          rw [ih cs (fun d hd => h d (List.mem_cons_of_mem c hd))]

theorem linkSub_id (l : List Char) (h : ∀ c ∈ l, c ≠ '[') :
    linkSub l = l :=
  linkSubF_id _ l h

theorem stripBQF_id (fuel : Nat) (ls : Bool) (l : List Char)
    (h : ∀ c ∈ l, c ≠ '>' ∧ c ≠ '\n') : stripBQF fuel ls l = l := by
  induction fuel generalizing ls l with
  | zero => rfl
  | succ fuel ih =>
      cases l with
      | nil => rfl
      | cons c cs =>
          simp only [stripBQF]
          rw [if_neg (fun hcond => (h c (List.mem_cons_self c cs)).1 hcond.2)]
          rw [ih (c == '\n') cs (fun d hd => h d (List.mem_cons_of_mem c hd))]

theorem blockquoteSub_id (l : List Char)
    (h : ∀ c ∈ l, c ≠ '>' ∧ c ≠ '\n') : blockquoteSub l = l :=
  stripBQF_id _ true l h

theorem entityAt_eq_none (l : List Char) (h : ∀ c ∈ l, c ≠ '&') :
    entityAt l = none := by
  rw [entityAt, if_neg]
  intro hc
  cases l with
  | nil => cases hc
  | cons c cs =>
      simp only [List.take_succ_cons, List.take_zero] at hc
      have : c = '&' := by
        injection hc
      exact h c (List.mem_cons_self c cs) this

theorem entitySubF_id (fuel : Nat) (l : List Char)
    (h : ∀ c ∈ l, c ≠ '&') : entitySubF fuel l = l := by
  induction fuel generalizing l with
  | zero => rfl
  | succ fuel ih =>
      cases l with
      | nil => rfl
      | cons c cs =>
          simp only [entitySubF, entityAt_eq_none _ h]
          rw [ih cs (fun d hd => h d (List.mem_cons_of_mem c hd))]

theorem entitySub_id (l : List Char) (h : ∀ c ∈ l, c ≠ '&') :
    entitySub l = l :=
  entitySubF_id _ l h

theorem charFilter_id (l : List Char) (h : ∀ c ∈ l, cleanChar c = true) :
    charFilter l = l := by
  rw [charFilter]
  exact List.filter_eq_self.mpr
    (fun c hc => (cleanChar_props c (h c hc)).2.2.2.2.2.2.2.2.2)

theorem splitWSAux_append_word (cur w t : List Char)
    (hw : ∀ c ∈ w, c.isWhitespace = false) :
    splitWSAux cur (w ++ t) = splitWSAux (w.reverse ++ cur) t := by
  induction w generalizing cur with
  | nil => simp
  | cons c w ih =>
      rw [List.cons_append]
      simp only [splitWSAux]
      rw [if_neg (by simp [hw c (List.mem_cons_self c w)])]
      rw [ih (c :: cur) (fun d hd => hw d (List.mem_cons_of_mem c hd))]
      rw [List.reverse_cons, List.append_assoc, List.singleton_append]

theorem pySplit_joinWS (ws : List (List Char))
    (hws : ∀ w ∈ ws, w ≠ [] ∧ ∀ c ∈ w, c.isWhitespace = false) :
    pySplit (joinWS ws) = ws := by
  induction ws with
  | nil => rfl
  | cons w ws ih =>
      obtain ⟨hne, hnsp⟩ := hws w (List.mem_cons_self w ws)
      have hrevne : (w.reverse ++ ([] : List Char)).isEmpty = false := by
        simp [List.isEmpty_iff, hne]
      cases ws with
      | nil =>
          show splitWSAux [] (joinWS [w]) = [w]
          simp only [joinWS]
          have h := splitWSAux_append_word [] w [] hnsp
          rw [List.append_nil] at h
          rw [h]
          simp only [splitWSAux]
          rw [if_neg (by simp [hne])]
          rw [List.append_nil, List.reverse_reverse]
      | cons w2 ws2 =>
          show splitWSAux [] (joinWS (w :: w2 :: ws2)) = w :: w2 :: ws2
          simp only [joinWS]
          rw [splitWSAux_append_word [] w (' ' :: joinWS (w2 :: ws2)) hnsp]
          simp only [splitWSAux]
          rw [if_pos (by decide), if_neg (by simp [hne])]
          rw [List.append_nil, List.reverse_reverse]
          have ih2 := ih (fun w3 hw3 => hws w3 (List.mem_cons_of_mem w hw3))
          simp only [joinWS] at ih2
          rw [pySplit] at ih2
          rw [ih2]

theorem pySplit_good (l : List Char) :
    ∀ w ∈ pySplit l, w ≠ [] ∧ ∀ c ∈ w, c.isWhitespace = false := by
  intro w hw
  obtain ⟨hne, hmem⟩ := splitWSAux_good [] l
    (fun c hc => absurd hc (List.not_mem_nil c)) w hw
  exact ⟨hne, fun c hc => (hmem c hc).2⟩

theorem normalizeWS_idem (l : List Char) :
    normalizeWS (normalizeWS l) = normalizeWS l := by
  show joinWS (pySplit (joinWS (pySplit l))) = joinWS (pySplit l)
  rw [pySplit_joinWS (pySplit l) (pySplit_good l)]

/-- C9 (amended): `clean_text` re-applied to its own output is the
identity for every input whose cleaned form the URL-removal pass leaves
unchanged (equivalently: whose cleaned form contains no `http`/`www`
token immediately followed by a non-space); in general a second pass can
differ, as the counterexample shows. -/
theorem clean_text_idem (s : List Char)
    (h : urlSub (clean_text s) = clean_text s) :
    clean_text (clean_text s) = clean_text s := by
  have hch := clean_text_chars s
  conv_lhs => rw [clean_text]
  rw [map_toLower_id _ hch, h,
    mentionSub_id _ (fun c hc => (cleanChar_props c (hch c hc)).1),
    starFilter_id _ hch,
    linkSub_id _ (fun c hc => (cleanChar_props c (hch c hc)).2.1),
    blockquoteSub_id _ (fun c hc =>
      ⟨(cleanChar_props c (hch c hc)).2.2.1,
       (cleanChar_props c (hch c hc)).2.2.2.1⟩),
    entitySub_id _ (fun c hc => (cleanChar_props c (hch c hc)).2.2.2.2.1),
    charFilter_id _ hch]
  rw [clean_text]
  exact normalizeWS_idem _

/-- Counterexample for C9 as stated: cleaning is not idempotent — the
character filter of one pass can fabricate a URL-shaped token that the
next pass deletes: `clean_text "ht3tpx"` is `"httpx"` (the digit is
dropped), and a second pass removes `"httpx"` entirely as a URL. -/
theorem clean_text_not_idempotent :
    clean_text (clean_text "ht3tpx".data) ≠ clean_text "ht3tpx".data := by
  decide

/-- Witness for C9: a string whose cleaned form contains no URL-shaped
token re-cleans to itself. -/
theorem clean_text_idem_witness :
    clean_text (clean_text "So  COOL!! 123".data) =
      clean_text "So  COOL!! 123".data :=
  clean_text_idem "So  COOL!! 123".data (by decide)
